import Mathlib

/-!
# Verification of the WebOps blog storage layer

Shallow embedding of the storage layer (`MemStorage` / `DatabaseStorage`),
the route-level pagination, and the scheduled expiry sweep of the WebOps
blog service, together with proofs settling the specification claims.

Strings are modelled by Lean `String`; the JavaScript string operations
`toLowerCase` and `trim` are modelled character-wise on `String.data`
(basic-latin case mapping, which is what `Char.toLower` implements and is
adequate for the tag data the service manipulates).
-/

namespace WebOps

/-- Model of JavaScript `s.toLowerCase()`: lower-case every character. -/
def jsToLower (s : String) : String := ⟨s.data.map Char.toLower⟩

/-- Whitespace test used by the `trim` model. -/
def isWs (c : Char) : Bool := c.isWhitespace

/-- Drop leading and trailing whitespace from a character list. -/
def trimChars (l : List Char) : List Char :=
  ((l.dropWhile isWs).reverse.dropWhile isWs).reverse

/-- Model of JavaScript `s.trim()`. -/
def jsTrim (s : String) : String := ⟨trimChars s.data⟩

/-- Model of `t.toLowerCase().trim()` — the normalization applied to every incoming
tag name in `updatePostTags` (both storage classes). -/
def normalizeName (s : String) : String := jsTrim (jsToLower s)

theorem char_toNat_ofNat_valid {n : Nat} (h : n.isValidChar) :
    (Char.ofNat n).toNat = n := by
  rw [Char.ofNat, dif_pos h]
  simp [Char.ofNatAux, Char.toNat, UInt32.toNat, BitVec.toNat_ofNatLt]

theorem char_toLower_idem (c : Char) :
    Char.toLower (Char.toLower c) = Char.toLower c := by
  by_cases h : c.toNat ≥ 65 ∧ c.toNat ≤ 90
  · have hv : (c.toNat + 32).isValidChar := Or.inl (by omega)
    have h1 : Char.toLower c = Char.ofNat (c.toNat + 32) := by
      rw [Char.toLower, if_pos h]
    have h2 : (Char.toLower c).toNat = c.toNat + 32 := by
      rw [h1]; exact char_toNat_ofNat_valid hv
    rw [Char.toLower, h2, if_neg (by omega)]
  · have h1 : Char.toLower c = c := by rw [Char.toLower, if_neg h]
    rw [h1, h1]

theorem jsToLower_idem (s : String) : jsToLower (jsToLower s) = jsToLower s := by
  show (⟨((s.data.map Char.toLower).map Char.toLower : List Char)⟩ : String) = _
  rw [List.map_map]
  exact congrArg String.mk (List.map_congr_left fun c _ => char_toLower_idem c)

theorem trimChars_subset (l : List Char) : ∀ c ∈ trimChars l, c ∈ l := by
  intro c hc
  unfold trimChars at hc
  rw [List.mem_reverse] at hc
  have h2 := (List.dropWhile_sublist (l := (l.dropWhile isWs).reverse) isWs).subset hc
  rw [List.mem_reverse] at h2
  exact (List.dropWhile_sublist isWs).subset h2

theorem jsToLower_jsTrim_jsToLower (s : String) :
    jsToLower (jsTrim (jsToLower s)) = jsTrim (jsToLower s) := by
  show (⟨(trimChars (s.data.map Char.toLower)).map Char.toLower⟩ : String) = _
  refine congrArg String.mk ?_
  have : ∀ c ∈ trimChars (s.data.map Char.toLower), Char.toLower c = c := by
    intro c hc
    obtain ⟨a, _, rfl⟩ := List.mem_map.mp (trimChars_subset _ c hc)
    exact char_toLower_idem a
  calc (trimChars (s.data.map Char.toLower)).map Char.toLower
      = (trimChars (s.data.map Char.toLower)).map id :=
        List.map_congr_left fun c hc => this c hc
    _ = _ := List.map_id _

/-- A normalized tag name is a fixed point of `jsToLower`. -/
theorem normalizeName_lower_fix (s : String) :
    jsToLower (normalizeName s) = normalizeName s :=
  jsToLower_jsTrim_jsToLower s

/-- Iteration of the JavaScript `Set` constructor: keep the elements not
seen before, in order of first occurrence. -/
def dedupFirstAux (seen : List String) : List String → List String
  | [] => []
  | x :: xs =>
    if x ∈ seen then dedupFirstAux seen xs
    else x :: dedupFirstAux (x :: seen) xs

/-- Model of `[...new Set(list)]` — de-duplication keeping first occurrences, as the
JavaScript `Set` constructor does. -/
def dedupFirst (l : List String) : List String := dedupFirstAux [] l

theorem mem_dedupFirstAux : ∀ (l seen : List String) (a : String),
    a ∈ dedupFirstAux seen l ↔ (a ∈ l ∧ a ∉ seen) := by
  intro l
  induction l with
  | nil => intro seen a; simp [dedupFirstAux]
  | cons x xs ih =>
    intro seen a
    rw [dedupFirstAux]
    by_cases hx : x ∈ seen
    · rw [if_pos hx, ih, List.mem_cons]
      constructor
      · rintro ⟨ha, hs⟩
        exact ⟨Or.inr ha, hs⟩
      · rintro ⟨ha | ha, hs⟩
        · exact absurd (ha ▸ hx) hs
        · exact ⟨ha, hs⟩
    · rw [if_neg hx, List.mem_cons, ih]
      constructor
      · rintro (rfl | ⟨ha, hs⟩)
        · exact ⟨List.mem_cons_self a xs, hx⟩
        · exact ⟨List.mem_cons_of_mem x ha,
            fun hm => hs (List.mem_cons_of_mem x hm)⟩
      · rintro ⟨hmem, hs⟩
        rcases List.mem_cons.mp hmem with rfl | ha
        · exact Or.inl rfl
        · by_cases hax : a = x
          · exact Or.inl hax
          · refine Or.inr ⟨ha, ?_⟩
            intro hm
            rcases List.mem_cons.mp hm with h1 | h2
            · exact hax h1
            · exact hs h2

theorem mem_dedupFirst : ∀ (l : List String) (a : String),
    a ∈ dedupFirst l ↔ a ∈ l := by
  intro l a
  unfold dedupFirst
  rw [mem_dedupFirstAux]
  simp

theorem nodup_dedupFirstAux : ∀ (l seen : List String),
    (dedupFirstAux seen l).Nodup := by
  intro l
  induction l with
  | nil => intro seen; exact List.nodup_nil
  | cons x xs ih =>
    intro seen
    rw [dedupFirstAux]
    by_cases hx : x ∈ seen
    · rw [if_pos hx]
      exact ih seen
    · rw [if_neg hx]
      refine List.nodup_cons.mpr ⟨?_, ih (x :: seen)⟩
      intro hmem
      exact ((mem_dedupFirstAux _ _ _).mp hmem).2 (List.mem_cons_self x seen)

theorem nodup_dedupFirst (l : List String) : (dedupFirst l).Nodup :=
  nodup_dedupFirstAux l []

/-! ## Data model

The five entities of the schema (`shared/schema`), with `createdAt`
timestamps modelled as integer milliseconds.  The in-memory maps of
`MemStorage` (and the database tables) are modelled as lists in insertion
order; the auto-increment counters `tagId` / `postTagId` are carried
explicitly. -/

structure User where
  id : Nat
  name : String
  email : String
  deriving Repr, DecidableEq

structure Post where
  id : Nat
  title : String
  body : String
  authorId : Nat
  createdAt : Int
  deriving Repr, DecidableEq

structure Tag where
  id : Nat
  name : String
  deriving Repr, DecidableEq

structure PostTag where
  id : Nat
  postId : Nat
  tagId : Nat
  deriving Repr, DecidableEq

structure Comment where
  id : Nat
  body : String
  authorId : Nat
  postId : Nat
  createdAt : Int
  deriving Repr, DecidableEq

structure StoreState where
  users : List User
  posts : List Post
  tags : List Tag
  postTags : List PostTag
  comments : List Comment
  nextTagId : Nat
  nextPostTagId : Nat
  deriving Repr, DecidableEq

/-- Which of the two `IStorage` implementations is running: `MemStorage`
or `DatabaseStorage`.  The two classes differ in a few operations
(duplicate check in `addTagToPost`, case sensitivity of the tag lookup in
`getPostsByTag`, handling of empty strings in `updatePostTags`, …); shared
logic is defined once and branches on this value where the sources differ. -/
inductive Backend where
  | mem
  | db
  deriving Repr, DecidableEq

/-- Embedding of `getTagByName` — case-insensitive lookup.  `MemStorage` compares
`tag.name.toLowerCase() === name.toLowerCase()`; `DatabaseStorage` uses
`LOWER(tags.name) = LOWER(name)`.  Both are this function. -/
def getTagByName (name : String) (st : StoreState) : Option Tag :=
  st.tags.find? (fun t => jsToLower t.name == jsToLower name)

/-- Embedding of `createTag` — inserts a tag under the next fresh id. -/
def createTag (name : String) (st : StoreState) : Tag × StoreState :=
  let t : Tag := { id := st.nextTagId, name := name }
  (t, { st with tags := st.tags ++ [t], nextTagId := st.nextTagId + 1 })

/-- Embedding of `addTagToPost`.  `MemStorage` inserts unconditionally; `DatabaseStorage`
first looks the (postId, tagId) pair up and returns the existing row
without inserting when it is already present. -/
def addTagToPost (b : Backend) (postId tagId : Nat) (st : StoreState) :
    PostTag × StoreState :=
  let insert : PostTag × StoreState :=
    let pt : PostTag := { id := st.nextPostTagId, postId := postId, tagId := tagId }
    (pt, { st with postTags := st.postTags ++ [pt],
                   nextPostTagId := st.nextPostTagId + 1 })
  match b with
  | .mem => insert
  | .db =>
    match st.postTags.find? (fun pt => pt.postId == postId && pt.tagId == tagId) with
    | some pt => (pt, st)
    | none => insert

/-- Embedding of `removeTagFromPost`.  `MemStorage` scans the map and deletes the first
entry matching the (postId, tagId) pair; `DatabaseStorage` deletes every
matching row.  Both report whether a row was removed. -/
def removeTagFromPost (b : Backend) (postId tagId : Nat) (st : StoreState) :
    Bool × StoreState :=
  let hit := st.postTags.any (fun pt => pt.postId == postId && pt.tagId == tagId)
  match b with
  | .mem =>
    (hit, { st with postTags :=
      st.postTags.eraseP (fun pt => pt.postId == postId && pt.tagId == tagId) })
  | .db =>
    (hit, { st with postTags :=
      st.postTags.filter (fun pt => !(pt.postId == postId && pt.tagId == tagId)) })

/-- Embedding of `getTagsByPostId` — the rows of `postTags` for the post, resolved to
their `Tag` records (`MemStorage` drops entries whose tag id is absent;
the database inner join does the same). -/
def getTagsByPostId (postId : Nat) (st : StoreState) : List Tag :=
  (st.postTags.filter (fun pt => pt.postId == postId)).filterMap
    (fun pt => st.tags.find? (fun t => t.id == pt.tagId))

/-- The "add new tags" loop of `updatePostTags`.  `existingNames` is the
list of lower-cased names captured before the loop.  `MemStorage` skips
empty names inside the loop (`if (tagName === '') continue`);
`DatabaseStorage` filtered them out beforehand. -/
def addNewTagsLoop (b : Backend) (postId : Nat) (existingNames : List String) :
    List String → StoreState → StoreState
  | [], st => st
  | n :: rest, st =>
    if b = Backend.mem ∧ n = "" then
      addNewTagsLoop b postId existingNames rest st
    else if n ∈ existingNames then
      addNewTagsLoop b postId existingNames rest st
    else
      let found : Tag × StoreState :=
        match getTagByName n st with
        | some t => (t, st)
        | none => createTag n st
      addNewTagsLoop b postId existingNames rest
        (addTagToPost b postId found.1.id found.2).2

/-- The "remove stale tags" loop of `updatePostTags`: every previously
linked tag whose lower-cased name is not among `uniqueTags` is unlinked. -/
def removeStaleLoop (b : Backend) (postId : Nat) (uniqueTags : List String) :
    List Tag → StoreState → StoreState
  | [], st => st
  | t :: rest, st =>
    if jsToLower t.name ∈ uniqueTags then
      removeStaleLoop b postId uniqueTags rest st
    else
      removeStaleLoop b postId uniqueTags rest
        (removeTagFromPost b postId t.id st).2

/-- Embedding of `updatePostTags(postId, tagNames)` — normalizes and de-duplicates the
requested names, links the missing ones (creating tags as needed), unlinks
the stale ones, and returns the names now linked to the post. -/
def updatePostTags (b : Backend) (postId : Nat) (tagNames : List String)
    (st : StoreState) : List String × StoreState :=
  let existingTags := getTagsByPostId postId st
  let existingTagNames := existingTags.map (fun t => jsToLower t.name)
  let normalizedTags := tagNames.map normalizeName
  let uniqueTags :=
    match b with
    | .mem => dedupFirst normalizedTags
    | .db => (dedupFirst normalizedTags).filter (fun t => t != "")
  let st1 := addNewTagsLoop b postId existingTagNames uniqueTags st
  let st2 := removeStaleLoop b postId uniqueTags existingTags st1
  ((getTagsByPostId postId st2).map (fun t => t.name), st2)

/-- The lower-cased names of the tags currently linked to a post — the
"read back, compared case-insensitively" view of the association set. -/
def linkedLowerList (postId : Nat) (st : StoreState) : List String :=
  (getTagsByPostId postId st).map (fun t => jsToLower t.name)

/-- The canonical form of a tag-name sequence: each name lower-cased and
trimmed, empty strings dropped, duplicates removed. -/
def canonicalTagSet (names : List String) : Finset String :=
  ((names.map normalizeName).filter (fun s => s != "")).toFinset

/-- The (postId, tagId) pairs of the join table. -/
def pairsOf (st : StoreState) : List (Nat × Nat) :=
  st.postTags.map (fun pt => (pt.postId, pt.tagId))

/-- Well-formedness of a store state: the uniqueness constraints of the
schema (unique tag ids, case-insensitively unique tag names, unique join
pairs), stored tag names lower-case and non-empty (they are only ever
written already normalized), freshness of the tag id counter, and
referential integrity of the join table (`postTags.tagId → tags.id`). -/
def WF (st : StoreState) : Prop :=
  (st.tags.map Tag.id).Nodup ∧
  (st.tags.map (fun t => jsToLower t.name)).Nodup ∧
  (∀ t ∈ st.tags, t.name ≠ "" ∧ jsToLower t.name = t.name) ∧
  (∀ t ∈ st.tags, t.id < st.nextTagId) ∧
  (pairsOf st).Nodup ∧
  (∀ pt ∈ st.postTags, ∃ t ∈ st.tags, t.id = pt.tagId)

theorem find?_key_self {α : Type} (key : α → Nat) :
    ∀ (l : List α), (l.map key).Nodup → ∀ {a : α}, a ∈ l →
      l.find? (fun x => key x == key a) = some a := by
  intro l
  induction l with
  | nil => intro _ a ha; cases ha
  | cons x xs ih =>
    intro hnd a ha
    rw [List.map_cons, List.nodup_cons] at hnd
    rcases List.mem_cons.mp ha with rfl | hmem
    · rw [List.find?_cons_of_pos _ (by simp)]
    · have hne : key x ≠ key a := by
        intro he
        exact hnd.1 (he ▸ List.mem_map_of_mem key hmem)
      rw [List.find?_cons_of_neg _ (by simp [hne]), ih hnd.2 hmem]

theorem nodup_append_singleton {α : Type} {l : List α} {a : α}
    (h : l.Nodup) (ha : a ∉ l) : (l ++ [a]).Nodup := by
  rw [List.nodup_append]
  exact ⟨h, List.nodup_singleton a, by simpa using ha⟩

theorem find?_append_isSome {α : Type} {p : α → Bool} {l₁ : List α}
    (l₂ : List α) (h : (l₁.find? p).isSome) :
    (l₁ ++ l₂).find? p = l₁.find? p := by
  rw [List.find?_append]
  obtain ⟨a, ha⟩ := Option.isSome_iff_exists.mp h
  rw [ha]
  rfl

theorem getTagsByPostId_subset {postId : Nat} {st : StoreState} :
    ∀ t ∈ getTagsByPostId postId st, t ∈ st.tags := by
  intro t ht
  obtain ⟨pt, _, hfind⟩ := List.mem_filterMap.mp ht
  exact List.mem_of_find?_eq_some hfind

theorem mem_linkedLowerList {postId : Nat} {st : StoreState} {s : String} :
    s ∈ linkedLowerList postId st ↔
      ∃ t ∈ getTagsByPostId postId st, jsToLower t.name = s := by
  simp [linkedLowerList]

theorem linkedLowerList_ne_empty {postId : Nat} {st : StoreState}
    (hwf : WF st) : ∀ s ∈ linkedLowerList postId st, s ≠ "" := by
  intro s hs
  obtain ⟨t, ht, rfl⟩ := mem_linkedLowerList.mp hs
  have := hwf.2.2.1 t (getTagsByPostId_subset t ht)
  rw [this.2]
  exact this.1

/-- A tag linked to some post is in the linked name list: used to derive
freshness of a (postId, tagId) pair from non-membership of the name. -/
theorem linked_of_pair_mem {postId : Nat} {st : StoreState} {t : Tag}
    (hwf : WF st) (ht : t ∈ st.tags) {pt : PostTag} (hpt : pt ∈ st.postTags)
    (hpid : pt.postId = postId) (htid : pt.tagId = t.id) :
    jsToLower t.name ∈ linkedLowerList postId st := by
  have hfind : st.tags.find? (fun u => u.id == pt.tagId) = some t := by
    rw [htid]
    exact find?_key_self Tag.id st.tags hwf.1 ht
  have hmem : t ∈ getTagsByPostId postId st := by
    refine List.mem_filterMap.mpr ⟨pt, ?_, hfind⟩
    exact List.mem_filter.mpr ⟨hpt, by simp [hpid]⟩
  exact mem_linkedLowerList.mpr ⟨t, hmem, rfl⟩

theorem getTagsByPostId_grow {postId : Nat} {st st' : StoreState} {pt : PostTag}
    {t : Tag} (hpts : st'.postTags = st.postTags ++ [pt]) (htags : st'.tags = st.tags)
    (hpid : pt.postId = postId)
    (hfind : st.tags.find? (fun u => u.id == pt.tagId) = some t) :
    getTagsByPostId postId st' = getTagsByPostId postId st ++ [t] := by
  unfold getTagsByPostId
  rw [hpts, htags, List.filter_append, List.filterMap_append]
  congr 1
  simp [hpid, hfind]

/-- Calling `createTag` with a genuinely new canonical name preserves
well-formedness and changes no post's tag list. -/
theorem createTag_spec {st : StoreState} {n : String}
    (hwf : WF st) (hne : n ≠ "") (hlow : jsToLower n = n)
    (hnew : ∀ u ∈ st.tags, jsToLower u.name ≠ n) :
    WF (createTag n st).2 ∧
    (createTag n st).1 ∈ (createTag n st).2.tags ∧
    (createTag n st).1.name = n ∧
    (∀ postId, getTagsByPostId postId (createTag n st).2 = getTagsByPostId postId st) ∧
    (createTag n st).2.postTags = st.postTags ∧
    (createTag n st).2.users = st.users ∧
    (createTag n st).2.posts = st.posts ∧
    (createTag n st).2.comments = st.comments ∧
    (∀ t ∈ st.tags, t ∈ (createTag n st).2.tags) := by
  obtain ⟨h1, h2, h3, h4, h5, h6⟩ := hwf
  have hidnew : ∀ u ∈ st.tags, u.id ≠ st.nextTagId := fun u hu => Nat.ne_of_lt (h4 u hu)
  refine ⟨⟨?_, ?_, ?_, ?_, ?_, ?_⟩, ?_, rfl, ?_, rfl, rfl, rfl, rfl, ?_⟩
  · simp only [createTag, List.map_append]
    exact nodup_append_singleton h1 (by
      intro hmem
      obtain ⟨u, hu, huid⟩ := List.mem_map.mp hmem
      exact hidnew u hu huid)
  · simp only [createTag, List.map_append]
    exact nodup_append_singleton h2 (by
      intro hmem
      obtain ⟨u, hu, huid⟩ := List.mem_map.mp hmem
      exact hnew u hu (by simpa [hlow] using huid))
  · simp only [createTag]
    intro t ht
    rcases List.mem_append.mp ht with hold | hnewt
    · exact h3 t hold
    · simp at hnewt
      subst hnewt
      exact ⟨hne, hlow⟩
  · simp only [createTag]
    intro t ht
    rcases List.mem_append.mp ht with hold | hnewt
    · exact Nat.lt_succ_of_lt (h4 t hold)
    · simp at hnewt
      subst hnewt
      exact Nat.lt_succ_self _
  · simpa [createTag, pairsOf] using h5
  · simp only [createTag]
    intro pt hpt
    obtain ⟨u, hu, huid⟩ := h6 pt hpt
    exact ⟨u, List.mem_append_left _ hu, huid⟩
  · simp [createTag]
  · intro postId
    unfold getTagsByPostId
    simp only [createTag]
    apply List.filterMap_congr
    intro q hq
    have hq' : q ∈ st.postTags := (List.mem_filter.mp hq).1
    obtain ⟨u, hu, huid⟩ := h6 q hq'
    have hsome : (st.tags.find? (fun v => v.id == q.tagId)).isSome :=
      List.find?_isSome.mpr ⟨u, hu, by simp [huid]⟩
    exact find?_append_isSome _ hsome
  · intro t ht
    simp only [createTag]
    exact List.mem_append_left _ ht

/-- Inserting a fresh (postId, tagId) join row preserves well-formedness
and appends exactly the referenced tag's lower-cased name to the post's
linked names. -/
theorem insert_pt_spec {postId tid : Nat} {st : StoreState} {t : Tag}
    (hwf : WF st) (ht : t ∈ st.tags) (htid : tid = t.id)
    (hfresh : (postId, tid) ∉ pairsOf st) :
    WF { st with postTags := st.postTags ++ [⟨st.nextPostTagId, postId, tid⟩],
                 nextPostTagId := st.nextPostTagId + 1 } ∧
    linkedLowerList postId
        { st with postTags := st.postTags ++ [⟨st.nextPostTagId, postId, tid⟩],
                  nextPostTagId := st.nextPostTagId + 1 }
      = linkedLowerList postId st ++ [jsToLower t.name] := by
  obtain ⟨h1, h2, h3, h4, h5, h6⟩ := hwf
  constructor
  · refine ⟨h1, h2, h3, h4, ?_, ?_⟩
    · simpa [pairsOf] using nodup_append_singleton (by simpa [pairsOf] using h5)
        (by simpa [pairsOf] using hfresh)
    · intro pt hpt
      rcases List.mem_append.mp hpt with hold | hnewpt
      · exact h6 pt hold
      · simp at hnewpt
        subst hnewpt
        exact ⟨t, ht, htid.symm⟩
  · unfold linkedLowerList
    have hg := @getTagsByPostId_grow postId st
      { st with postTags := st.postTags ++ [⟨st.nextPostTagId, postId, tid⟩],
                nextPostTagId := st.nextPostTagId + 1 }
      ⟨st.nextPostTagId, postId, tid⟩ t rfl rfl rfl
      (by subst htid; exact find?_key_self Tag.id st.tags h1 ht)
    rw [hg]
    simp

/-- When the (postId, tagId) pair is fresh, both `addTagToPost`
implementations insert the row (the `DatabaseStorage` existence check
finds nothing). -/
theorem addTagToPost_insert (b : Backend) {postId tid : Nat} {st : StoreState}
    (hfresh : (postId, tid) ∉ pairsOf st) :
    (addTagToPost b postId tid st).2 =
      { st with postTags := st.postTags ++ [⟨st.nextPostTagId, postId, tid⟩],
                nextPostTagId := st.nextPostTagId + 1 } := by
  cases b
  · rfl
  · have hnone : st.postTags.find?
        (fun pt => pt.postId == postId && pt.tagId == tid) = none := by
      rw [List.find?_eq_none]
      intro pt hpt hmatch
      simp at hmatch
      exact hfresh (List.mem_map.mpr ⟨pt, hpt, by simp [hmatch.1, hmatch.2]⟩)
    unfold addTagToPost
    rw [hnone]

/-- Linking a resolved tag whose pair is fresh: well-formedness is kept and
the post's linked lower-cased names gain exactly that tag's name. -/
theorem resolve_insert_spec (b : Backend) (postId : Nat) {st₀ : StoreState}
    {tg : Tag} {n : String}
    (hwf : WF st₀) (htg : tg ∈ st₀.tags) (hname : jsToLower tg.name = n)
    (hfresh : (postId, tg.id) ∉ pairsOf st₀) :
    WF (addTagToPost b postId tg.id st₀).2 ∧
    linkedLowerList postId (addTagToPost b postId tg.id st₀).2
      = linkedLowerList postId st₀ ++ [n] ∧
    (addTagToPost b postId tg.id st₀).2.users = st₀.users ∧
    (addTagToPost b postId tg.id st₀).2.posts = st₀.posts ∧
    (addTagToPost b postId tg.id st₀).2.comments = st₀.comments ∧
    (addTagToPost b postId tg.id st₀).2.tags = st₀.tags := by
  rw [addTagToPost_insert b hfresh]
  obtain ⟨hwf', hl⟩ := insert_pt_spec hwf htg rfl hfresh
  exact ⟨hwf', by rw [hl, hname], rfl, rfl, rfl, rfl⟩

/-- Specification of the add loop of `updatePostTags`: starting from a
well-formed state, with pairwise-distinct lower-case-normalized names whose
unlinked members are genuinely unlinked, the loop preserves well-formedness
and appends to the post's linked names exactly the non-empty names not in
`existingNames`. -/
theorem addNewTagsLoop_spec (b : Backend) (postId : Nat)
    (existingNames : List String) :
    ∀ (ns : List String) (st : StoreState),
      WF st →
      ns.Nodup →
      (∀ n ∈ ns, jsToLower n = n) →
      (∀ n ∈ ns, n ≠ "" → n ∉ existingNames → n ∉ linkedLowerList postId st) →
      (b = Backend.db → ∀ n ∈ ns, n ≠ "") →
      WF (addNewTagsLoop b postId existingNames ns st) ∧
      linkedLowerList postId (addNewTagsLoop b postId existingNames ns st)
        = linkedLowerList postId st
            ++ ns.filter (fun n => decide (n ≠ "" ∧ n ∉ existingNames)) ∧
      (addNewTagsLoop b postId existingNames ns st).users = st.users ∧
      (addNewTagsLoop b postId existingNames ns st).posts = st.posts ∧
      (addNewTagsLoop b postId existingNames ns st).comments = st.comments ∧
      (∀ t ∈ st.tags, t ∈ (addNewTagsLoop b postId existingNames ns st).tags) := by
  intro ns
  induction ns with
  | nil =>
    intro st hwf _ _ _ _
    exact ⟨hwf, by simp [addNewTagsLoop], rfl, rfl, rfl, fun t ht => ht⟩
  | cons n rest ih =>
    intro st hwf hnd hlow hnl hdb
    have hndr : rest.Nodup := (List.nodup_cons.mp hnd).2
    have hnr : n ∉ rest := (List.nodup_cons.mp hnd).1
    have hlowr : ∀ m ∈ rest, jsToLower m = m :=
      fun m hm => hlow m (List.mem_cons_of_mem n hm)
    have hdbr : b = Backend.db → ∀ m ∈ rest, m ≠ "" :=
      fun hb m hm => hdb hb m (List.mem_cons_of_mem n hm)
    rw [addNewTagsLoop]
    by_cases hskip1 : b = Backend.mem ∧ n = ""
    · rw [if_pos hskip1]
      have hres := ih st hwf hndr hlowr
        (fun m hm => hnl m (List.mem_cons_of_mem n hm)) hdbr
      have hfilter : (n :: rest).filter (fun m => decide (m ≠ "" ∧ m ∉ existingNames))
          = rest.filter (fun m => decide (m ≠ "" ∧ m ∉ existingNames)) := by
        rw [List.filter_cons_of_neg]
        simp [hskip1.2]
      rw [hfilter]
      exact hres
    · rw [if_neg hskip1]
      by_cases hskip2 : n ∈ existingNames
      · rw [if_pos hskip2]
        have hres := ih st hwf hndr hlowr
          (fun m hm => hnl m (List.mem_cons_of_mem n hm)) hdbr
        have hfilter : (n :: rest).filter (fun m => decide (m ≠ "" ∧ m ∉ existingNames))
            = rest.filter (fun m => decide (m ≠ "" ∧ m ∉ existingNames)) := by
          rw [List.filter_cons_of_neg]
          simp [hskip2]
        rw [hfilter]
        exact hres
      · rw [if_neg hskip2]
        have hne : n ≠ "" := by
          cases b with
          | mem => exact fun h => hskip1 ⟨rfl, h⟩
          | db => exact hdb rfl n (List.mem_cons_self n rest)
        have hlown : jsToLower n = n := hlow n (List.mem_cons_self n rest)
        have hnl0 : n ∉ linkedLowerList postId st :=
          hnl n (List.mem_cons_self n rest) hne hskip2
        have hfilter : (n :: rest).filter (fun m => decide (m ≠ "" ∧ m ∉ existingNames))
            = n :: rest.filter (fun m => decide (m ≠ "" ∧ m ∉ existingNames)) := by
          rw [List.filter_cons_of_pos]
          simp [hne, hskip2]
        rw [hfilter]
        cases hfind : getTagByName n st with
        | some t =>
          have htmem : t ∈ st.tags := List.mem_of_find?_eq_some hfind
          have hname : jsToLower t.name = n := by
            have := List.find?_some hfind
            simp only [beq_iff_eq] at this
            rw [this, hlown]
          have hfresh : (postId, t.id) ∉ pairsOf st := by
            intro hmem
            obtain ⟨pt, hpt, heq⟩ := List.mem_map.mp hmem
            have h1 : pt.postId = postId := congrArg Prod.fst heq
            have h2 : pt.tagId = t.id := congrArg Prod.snd heq
            exact hnl0 (hname ▸ linked_of_pair_mem hwf htmem hpt h1 h2)
          obtain ⟨hwf', hl', hu', hp', hc', ht'⟩ :=
            resolve_insert_spec b postId hwf htmem hname hfresh
          obtain ⟨rwf, rl, ru, rp, rc, rt⟩ :=
            ih _ hwf' hndr hlowr
              (by
                intro m hm hmne hmex
                rw [hl']
                intro hmmem
                rcases List.mem_append.mp hmmem with hml | hmn
                · exact hnl m (List.mem_cons_of_mem n hm) hmne hmex hml
                · simp at hmn
                  subst hmn
                  exact hnr hm)
              hdbr
          refine ⟨rwf, ?_, by rw [ru, hu'], by rw [rp, hp'], by rw [rc, hc'], ?_⟩
          · rw [rl, hl', List.append_assoc]
            rfl
          · intro u hu
            exact rt u (ht' ▸ hu)
        | none =>
          have hnew : ∀ u ∈ st.tags, jsToLower u.name ≠ n := by
            intro u hu
            have := List.find?_eq_none.mp hfind u hu
            simp only [beq_iff_eq] at this
            rw [hlown] at this
            exact this
          obtain ⟨cwf, cmem, cname, cgets, cpts, cu, cp, cc, csub⟩ :=
            createTag_spec hwf hne hlown hnew
          have hfresh : (postId, (createTag n st).1.id) ∉ pairsOf (createTag n st).2 := by
            have hpairs : pairsOf (createTag n st).2 = pairsOf st := by
              simp [pairsOf, cpts]
            rw [hpairs]
            intro hmem
            obtain ⟨pt, hpt, heq⟩ := List.mem_map.mp hmem
            have h2 : pt.tagId = (createTag n st).1.id := congrArg Prod.snd heq
            obtain ⟨u, hu, huid⟩ := hwf.2.2.2.2.2 pt hpt
            have : u.id < st.nextTagId := hwf.2.2.2.1 u hu
            have hcid : (createTag n st).1.id = st.nextTagId := rfl
            omega
          have hnamec : jsToLower (createTag n st).1.name = n := by
            rw [cname, hlown]
          obtain ⟨hwf', hl', hu', hp', hc', ht'⟩ :=
            resolve_insert_spec b postId cwf cmem hnamec hfresh
          have hlc : linkedLowerList postId (createTag n st).2
              = linkedLowerList postId st := by
            unfold linkedLowerList
            rw [cgets postId]
          obtain ⟨rwf, rl, ru, rp, rc, rt⟩ :=
            ih _ hwf' hndr hlowr
              (by
                intro m hm hmne hmex
                rw [hl', hlc]
                intro hmmem
                rcases List.mem_append.mp hmmem with hml | hmn
                · exact hnl m (List.mem_cons_of_mem n hm) hmne hmex hml
                · simp at hmn
                  subst hmn
                  exact hnr hm)
              hdbr
          refine ⟨rwf, ?_, by rw [ru, hu', cu], by rw [rp, hp', cp],
            by rw [rc, hc', cc], ?_⟩
          · rw [rl, hl', hlc, List.append_assoc]
            rfl
          · intro u hu
            exact rt u (ht' ▸ csub u hu)

/-- With unique (postId, tagId) pairs, `MemStorage`'s delete-first-match and
`DatabaseStorage`'s delete-all-matches agree on the join table. -/
theorem eraseP_pair_eq_filter (postId tid : Nat) :
    ∀ (l : List PostTag), (l.map (fun pt => (pt.postId, pt.tagId))).Nodup →
      l.eraseP (fun pt => pt.postId == postId && pt.tagId == tid)
        = l.filter (fun pt => !(pt.postId == postId && pt.tagId == tid)) := by
  intro l
  induction l with
  | nil => intro _; rfl
  | cons x xs ih =>
    intro hnd
    rw [List.map_cons, List.nodup_cons] at hnd
    by_cases hx : (x.postId == postId && x.tagId == tid) = true
    · have hx' : x.postId = postId ∧ x.tagId = tid := by simpa using hx
      rw [List.eraseP_cons_of_pos
        (p := fun pt : PostTag => pt.postId == postId && pt.tagId == tid) hx,
        List.filter_cons_of_neg (by simp [hx])]
      symm
      rw [List.filter_eq_self]
      intro a ha
      simp only [Bool.not_eq_true']
      by_contra hcon
      simp only [Bool.not_eq_false] at hcon
      have ha' : a.postId = postId ∧ a.tagId = tid := by simpa using hcon
      exact hnd.1 (by
        rw [hx'.1, hx'.2]
        exact List.mem_map.mpr ⟨a, ha, by rw [ha'.1, ha'.2]⟩)
    · have hx0 : (x.postId == postId && x.tagId == tid) = false :=
        Bool.eq_false_iff.mpr hx
      rw [List.eraseP_cons_of_neg
        (p := fun pt : PostTag => pt.postId == postId && pt.tagId == tid) hx,
        List.filter_cons_of_pos (by simp [hx0]), ih hnd.2]

theorem filterMap_find_filter (tags : List Tag) (tid : Nat) :
    ∀ (l : List PostTag),
      (l.filter (fun pt => !(pt.tagId == tid))).filterMap
          (fun pt => tags.find? (fun t => t.id == pt.tagId))
        = (l.filterMap (fun pt => tags.find? (fun t => t.id == pt.tagId))).filter
            (fun tg => !(tg.id == tid)) := by
  intro l
  induction l with
  | nil => rfl
  | cons pt rest ih =>
    by_cases hpt : pt.tagId = tid
    · rw [List.filter_cons_of_neg (by simp [hpt]), List.filterMap_cons]
      cases hf : tags.find? (fun t => t.id == pt.tagId) with
      | none => exact ih
      | some tg =>
        have htg : tg.id = tid := by
          have := List.find?_some hf
          simp only [beq_iff_eq] at this
          rw [this, hpt]
        rw [List.filter_cons_of_neg (by simp [htg]), ih]
    · rw [List.filter_cons_of_pos (by simp [hpt]), List.filterMap_cons,
        List.filterMap_cons]
      cases hf : tags.find? (fun t => t.id == pt.tagId) with
      | none => exact ih
      | some tg =>
        have htg : tg.id = pt.tagId := by
          have := List.find?_some hf
          simpa using this
        rw [List.filter_cons_of_pos (by simp [htg, hpt]), ih]

/-- Effect of `removeTagFromPost` under well-formedness: both implementations remove
exactly the rows of the (postId, tagId) pair, preserve well-formedness, and
delete exactly that tag's lower-cased name from the post's linked names. -/
theorem removeTagFromPost_spec (b : Backend) (postId : Nat) {st : StoreState}
    {t : Tag} (hwf : WF st) (ht : t ∈ st.tags) :
    WF (removeTagFromPost b postId t.id st).2 ∧
    linkedLowerList postId (removeTagFromPost b postId t.id st).2
      = (linkedLowerList postId st).filter (fun s => !(s == jsToLower t.name)) ∧
    (removeTagFromPost b postId t.id st).2.users = st.users ∧
    (removeTagFromPost b postId t.id st).2.posts = st.posts ∧
    (removeTagFromPost b postId t.id st).2.comments = st.comments ∧
    (removeTagFromPost b postId t.id st).2.tags = st.tags := by
  obtain ⟨h1, h2, h3, h4, h5, h6⟩ := hwf
  have hpts : (removeTagFromPost b postId t.id st).2.postTags
      = st.postTags.filter (fun pt => !(pt.postId == postId && pt.tagId == t.id)) := by
    cases b
    · simpa [removeTagFromPost] using
        eraseP_pair_eq_filter postId t.id st.postTags (by simpa [pairsOf] using h5)
    · rfl
  have hrest : (removeTagFromPost b postId t.id st).2.users = st.users ∧
      (removeTagFromPost b postId t.id st).2.posts = st.posts ∧
      (removeTagFromPost b postId t.id st).2.comments = st.comments ∧
      (removeTagFromPost b postId t.id st).2.tags = st.tags ∧
      (removeTagFromPost b postId t.id st).2.nextTagId = st.nextTagId := by
    cases b <;> exact ⟨rfl, rfl, rfl, rfl, rfl⟩
  refine ⟨⟨?_, ?_, ?_, ?_, ?_, ?_⟩, ?_, hrest.1, hrest.2.1, hrest.2.2.1, hrest.2.2.2.1⟩
  · rw [hrest.2.2.2.1]; exact h1
  · rw [hrest.2.2.2.1]; exact h2
  · rw [hrest.2.2.2.1]; exact h3
  · rw [hrest.2.2.2.1, hrest.2.2.2.2]; exact h4
  · have : List.Sublist (pairsOf (removeTagFromPost b postId t.id st).2) (pairsOf st) := by
      unfold pairsOf
      rw [hpts]
      exact (List.filter_sublist st.postTags).map _
    exact h5.sublist this
  · intro pt hpt
    rw [hpts] at hpt
    rw [hrest.2.2.2.1]
    exact h6 pt (List.mem_of_mem_filter hpt)
  · unfold linkedLowerList getTagsByPostId
    rw [hpts, hrest.2.2.2.1, List.filter_filter]
    have hcomm : st.postTags.filter
        (fun pt => (pt.postId == postId) && !(pt.postId == postId && pt.tagId == t.id))
        = (st.postTags.filter (fun pt => pt.postId == postId)).filter
            (fun pt => !(pt.tagId == t.id)) := by
      rw [List.filter_filter]
      apply List.filter_congr
      intro pt _
      cases hp : (pt.postId == postId) <;> cases hq : (pt.tagId == t.id) <;> simp [hp, hq]
    rw [hcomm, filterMap_find_filter]
    rw [List.filter_map]
    refine congrArg _ (List.filter_congr ?_)
    intro tg htg
    have htgmem : tg ∈ st.tags := by
      obtain ⟨pt, _, hfind⟩ := List.mem_filterMap.mp htg
      exact List.mem_of_find?_eq_some hfind
    simp only [Function.comp]
    by_cases hid : tg.id = t.id
    · have : tg = t := List.inj_on_of_nodup_map h1 htgmem ht hid
      simp [hid, this]
    · have hname : jsToLower tg.name ≠ jsToLower t.name := by
        intro he
        exact hid (congrArg Tag.id (List.inj_on_of_nodup_map h2 htgmem ht he))
      simp [hid, hname]

/-- Specification of the remove loop of `updatePostTags`: it preserves
well-formedness and removes from the post's linked names exactly the names
of the processed tags that are not in `uniqueTags`. -/
theorem removeStaleLoop_spec (b : Backend) (postId : Nat) (uniq : List String) :
    ∀ (ts : List Tag) (st : StoreState),
      WF st →
      (∀ t ∈ ts, t ∈ st.tags) →
      WF (removeStaleLoop b postId uniq ts st) ∧
      (∀ s, s ∈ linkedLowerList postId (removeStaleLoop b postId uniq ts st)
        ↔ (s ∈ linkedLowerList postId st ∧
            ¬ ∃ t ∈ ts, jsToLower t.name = s ∧ jsToLower t.name ∉ uniq)) ∧
      (removeStaleLoop b postId uniq ts st).users = st.users ∧
      (removeStaleLoop b postId uniq ts st).posts = st.posts ∧
      (removeStaleLoop b postId uniq ts st).comments = st.comments ∧
      (removeStaleLoop b postId uniq ts st).tags = st.tags := by
  intro ts
  induction ts with
  | nil =>
    intro st hwf _
    refine ⟨hwf, ?_, rfl, rfl, rfl, rfl⟩
    intro s
    simp [removeStaleLoop]
  | cons t rest ih =>
    intro st hwf hmem
    rw [removeStaleLoop]
    by_cases hin : jsToLower t.name ∈ uniq
    · rw [if_pos hin]
      obtain ⟨rwf, rl, ru, rp, rc, rt⟩ :=
        ih st hwf (fun u hu => hmem u (List.mem_cons_of_mem t hu))
      refine ⟨rwf, ?_, ru, rp, rc, rt⟩
      intro s
      rw [rl s]
      constructor
      · rintro ⟨hs, hno⟩
        refine ⟨hs, ?_⟩
        rintro ⟨u, hu, hus, hunotin⟩
        rcases List.mem_cons.mp hu with rfl | hur
        · exact hunotin hin
        · exact hno ⟨u, hur, hus, hunotin⟩
      · rintro ⟨hs, hno⟩
        exact ⟨hs, fun ⟨u, hur, hus, hnin⟩ =>
          hno ⟨u, List.mem_cons_of_mem t hur, hus, hnin⟩⟩
    · rw [if_neg hin]
      have htst : t ∈ st.tags := hmem t (List.mem_cons_self t rest)
      obtain ⟨swf, sl, su, sp, sc, stg⟩ := removeTagFromPost_spec b postId hwf htst
      obtain ⟨rwf, rl, ru, rp, rc, rt⟩ := ih _ swf
        (fun u hu => stg ▸ hmem u (List.mem_cons_of_mem t hu))
      refine ⟨rwf, ?_, by rw [ru, su], by rw [rp, sp], by rw [rc, sc],
        by rw [rt, stg]⟩
      intro s
      rw [rl s, sl, List.mem_filter]
      have hbool : ((!(s == jsToLower t.name)) = true) ↔ s ≠ jsToLower t.name := by
        simp
      rw [hbool]
      constructor
      · rintro ⟨⟨hs, hne⟩, hno⟩
        refine ⟨hs, ?_⟩
        rintro ⟨u, hu, hus, hunotin⟩
        rcases List.mem_cons.mp hu with rfl | hur
        · exact hne hus.symm
        · exact hno ⟨u, hur, hus, hunotin⟩
      · rintro ⟨hs, hno⟩
        refine ⟨⟨hs, ?_⟩, ?_⟩
        · intro he
          exact hno ⟨t, List.mem_cons_self t rest, he.symm, hin⟩
        · rintro ⟨u, hur, hus, hunotin⟩
          exact hno ⟨u, List.mem_cons_of_mem t hur, hus, hunotin⟩

/-- Combined effect of the two loops of `updatePostTags` (in the shape in
which `updatePostTags` composes them): starting well-formed, the resulting
linked lower-cased name set is exactly the non-empty part of
`uniqueTags`. -/
theorem reconcile_spec (b : Backend) (postId : Nat) (st : StoreState)
    (hwf : WF st) (uniq : List String) (hnd : uniq.Nodup)
    (hlow : ∀ n ∈ uniq, jsToLower n = n)
    (hdb : b = Backend.db → ∀ n ∈ uniq, n ≠ "") :
    WF (removeStaleLoop b postId uniq (getTagsByPostId postId st)
          (addNewTagsLoop b postId (linkedLowerList postId st) uniq st)) ∧
    (∀ s, s ∈ linkedLowerList postId
          (removeStaleLoop b postId uniq (getTagsByPostId postId st)
            (addNewTagsLoop b postId (linkedLowerList postId st) uniq st))
        ↔ (s ∈ uniq ∧ s ≠ "")) ∧
    (removeStaleLoop b postId uniq (getTagsByPostId postId st)
        (addNewTagsLoop b postId (linkedLowerList postId st) uniq st)).users
      = st.users ∧
    (removeStaleLoop b postId uniq (getTagsByPostId postId st)
        (addNewTagsLoop b postId (linkedLowerList postId st) uniq st)).posts
      = st.posts ∧
    (removeStaleLoop b postId uniq (getTagsByPostId postId st)
        (addNewTagsLoop b postId (linkedLowerList postId st) uniq st)).comments
      = st.comments := by
  obtain ⟨awf, al, au, ap, ac, at'⟩ :=
    addNewTagsLoop_spec b postId (linkedLowerList postId st) uniq st hwf hnd hlow
      (fun n _ _ h => h) hdb
  obtain ⟨rwf, rl, ru, rp, rc, rt⟩ :=
    removeStaleLoop_spec b postId uniq (getTagsByPostId postId st) _ awf
      (fun t ht => at' t (getTagsByPostId_subset t ht))
  refine ⟨rwf, ?_, by rw [ru, au], by rw [rp, ap], by rw [rc, ac]⟩
  intro s
  rw [rl s, al, List.mem_append, List.mem_filter]
  have hEs : ∀ s' ∈ linkedLowerList postId st, s' ≠ "" :=
    linkedLowerList_ne_empty hwf
  have hex : (∃ t ∈ getTagsByPostId postId st,
        jsToLower t.name = s ∧ jsToLower t.name ∉ uniq)
      ↔ (s ∈ linkedLowerList postId st ∧ s ∉ uniq) := by
    constructor
    · rintro ⟨t, ht, hts, hnin⟩
      exact ⟨mem_linkedLowerList.mpr ⟨t, ht, hts⟩, hts ▸ hnin⟩
    · rintro ⟨hsE, hsnin⟩
      obtain ⟨t, ht, hts⟩ := mem_linkedLowerList.mp hsE
      exact ⟨t, ht, hts, hts.symm ▸ hsnin⟩
  rw [hex]
  have hdec : (decide (s ≠ "" ∧ s ∉ linkedLowerList postId st) = true)
      ↔ (s ≠ "" ∧ s ∉ linkedLowerList postId st) := by
    simp
  rw [hdec]
  constructor
  · rintro ⟨hor, hni⟩
    rcases hor with hsE | ⟨hsu, hne, _⟩
    · have hsu : s ∈ uniq := by
        by_contra h
        exact hni ⟨hsE, h⟩
      exact ⟨hsu, hEs s hsE⟩
    · exact ⟨hsu, hne⟩
  · rintro ⟨hsu, hne⟩
    by_cases hsE : s ∈ linkedLowerList postId st
    · exact ⟨Or.inl hsE, fun h => h.2 hsu⟩
    · exact ⟨Or.inr ⟨hsu, hne, hsE⟩, fun h => hsE h.1⟩

/-- Master specification of `updatePostTags`: on a well-formed state, for
either storage implementation and any input names, the post's linked
tag-name set — read back and compared case-insensitively — is afterwards
exactly the canonical set of the input names; well-formedness is preserved
and the users/posts/comments tables are untouched. -/
theorem updatePostTags_spec (b : Backend) (postId : Nat) (names : List String)
    (st : StoreState) (hwf : WF st) :
    WF (updatePostTags b postId names st).2 ∧
    (linkedLowerList postId (updatePostTags b postId names st).2).toFinset
      = canonicalTagSet names ∧
    (updatePostTags b postId names st).2.users = st.users ∧
    (updatePostTags b postId names st).2.posts = st.posts ∧
    (updatePostTags b postId names st).2.comments = st.comments := by
  have hlowM : ∀ n ∈ names.map normalizeName, jsToLower n = n := by
    intro n hn
    obtain ⟨x, _, rfl⟩ := List.mem_map.mp hn
    exact normalizeName_lower_fix x
  have hcanon : ∀ s, s ∈ canonicalTagSet names
      ↔ (s ∈ names.map normalizeName ∧ s ≠ "") := by
    intro s
    unfold canonicalTagSet
    rw [List.mem_toFinset, List.mem_filter]
    simp
  cases b with
  | mem =>
    obtain ⟨rwf, rl, ru, rp, rc⟩ := reconcile_spec Backend.mem postId st hwf
      (dedupFirst (names.map normalizeName))
      (nodup_dedupFirst _)
      (fun n hn => hlowM n ((mem_dedupFirst _ _).mp hn))
      (fun h => Backend.noConfusion h)
    refine ⟨rwf, ?_, ru, rp, rc⟩
    refine Finset.ext ?_
    intro s
    rw [List.mem_toFinset, hcanon s]
    exact (rl s).trans (by rw [mem_dedupFirst])
  | db =>
    obtain ⟨rwf, rl, ru, rp, rc⟩ := reconcile_spec Backend.db postId st hwf
      ((dedupFirst (names.map normalizeName)).filter (fun t => t != ""))
      ((nodup_dedupFirst _).filter _)
      (fun n hn => hlowM n ((mem_dedupFirst _ _).mp (List.mem_of_mem_filter hn)))
      (fun _ n hn => by
        have := (List.mem_filter.mp hn).2
        simpa using this)
    refine ⟨rwf, ?_, ru, rp, rc⟩
    refine Finset.ext ?_
    intro s
    rw [List.mem_toFinset, hcanon s]
    refine (rl s).trans ⟨?_, ?_⟩
    · rintro ⟨hf, hne⟩
      exact ⟨(mem_dedupFirst _ _).mp (List.mem_of_mem_filter hf), hne⟩
    · rintro ⟨hm, hne⟩
      exact ⟨List.mem_filter.mpr ⟨(mem_dedupFirst _ _).mpr hm, by simpa using hne⟩,
        hne⟩

theorem addNewTagsLoop_noop (b : Backend) (postId : Nat)
    (existingNames : List String) :
    ∀ (ns : List String) (st : StoreState),
      (∀ n ∈ ns, (b = Backend.mem ∧ n = "") ∨ n ∈ existingNames) →
      addNewTagsLoop b postId existingNames ns st = st := by
  intro ns
  induction ns with
  | nil => intro st _; rfl
  | cons n rest ih =>
    intro st h
    have hrest := fun m hm => h m (List.mem_cons_of_mem n hm)
    rw [addNewTagsLoop]
    by_cases hskip1 : b = Backend.mem ∧ n = ""
    · rw [if_pos hskip1]
      exact ih st hrest
    · rw [if_neg hskip1]
      rcases h n (List.mem_cons_self n rest) with hskip | hmem
      · exact absurd hskip hskip1
      · rw [if_pos hmem]
        exact ih st hrest

theorem removeStaleLoop_noop (b : Backend) (postId : Nat) (uniq : List String) :
    ∀ (ts : List Tag) (st : StoreState),
      (∀ t ∈ ts, jsToLower t.name ∈ uniq) →
      removeStaleLoop b postId uniq ts st = st := by
  intro ts
  induction ts with
  | nil => intro st _; rfl
  | cons t rest ih =>
    intro st h
    rw [removeStaleLoop, if_pos (h t (List.mem_cons_self t rest))]
    exact ih st (fun u hu => h u (List.mem_cons_of_mem t hu))

/-- The empty store (fresh `MemStorage`, or an empty database). -/
def emptyStore : StoreState := ⟨[], [], [], [], [], 1, 1⟩

/-- A well-formed store in which post 1 is linked to the tag "go". -/
def goStore : StoreState :=
  ⟨[], [], [⟨1, "go"⟩], [⟨1, 1, 1⟩], [], 2, 2⟩

/-- Claim C1: for every post id and every tag-name sequence whose canonical
form (each name lower-cased and trimmed, empty strings dropped, duplicates
removed) is non-empty, after `updatePostTags(postId, names)` completes the
set of tag names linked to that post, read back and compared
case-insensitively, exactly equals that canonical set — for both storage
implementations, on any well-formed store state. -/
theorem C1_updatePostTags_canonical (b : Backend) (postId : Nat)
    (names : List String) (st : StoreState) (hwf : WF st)
    (hne : canonicalTagSet names ≠ ∅) :
    (linkedLowerList postId (updatePostTags b postId names st).2).toFinset
      = canonicalTagSet names :=
  (updatePostTags_spec b postId names st hwf).2.1

/-- Witness for C1: the spec's concrete scenario — creating the tag set
from `["API", "api", "Test"]` stores exactly `{"api", "test"}`. -/
theorem C1_witness :
    (linkedLowerList 1 (updatePostTags Backend.db 1 ["API", "api", "Test"]
        emptyStore).2).toFinset
      = canonicalTagSet ["API", "api", "Test"] :=
  C1_updatePostTags_canonical Backend.db 1 ["API", "api", "Test"] emptyStore
    (by unfold WF pairsOf; decide) (by decide)

/-- Claim C2: calling `updatePostTags` twice in a row with the same names
leaves the state after the second call equal to the state after the first
call — in particular the stored post-tag association set is identical and
the second call performs no net add or remove. -/
theorem C2_updatePostTags_idempotent (b : Backend) (postId : Nat)
    (names : List String) (st : StoreState) (hwf : WF st) :
    (updatePostTags b postId names (updatePostTags b postId names st).2).2
      = (updatePostTags b postId names st).2 := by
  obtain ⟨wf1, hset, _, _, _⟩ := updatePostTags_spec b postId names st hwf
  have hlinked : ∀ s, s ∈ linkedLowerList postId (updatePostTags b postId names st).2
      ↔ s ∈ canonicalTagSet names := by
    intro s
    rw [← hset, List.mem_toFinset]
  have hcanon : ∀ s, s ∈ canonicalTagSet names
      ↔ (s ∈ names.map normalizeName ∧ s ≠ "") := by
    intro s
    unfold canonicalTagSet
    rw [List.mem_toFinset, List.mem_filter]
    simp
  cases b with
  | mem =>
    have hadd : addNewTagsLoop Backend.mem postId
        (linkedLowerList postId (updatePostTags Backend.mem postId names st).2)
        (dedupFirst (names.map normalizeName))
        (updatePostTags Backend.mem postId names st).2
        = (updatePostTags Backend.mem postId names st).2 := by
      apply addNewTagsLoop_noop
      intro n hn
      by_cases hne : n = ""
      · exact Or.inl ⟨rfl, hne⟩
      · refine Or.inr ((hlinked n).mpr ((hcanon n).mpr
          ⟨(mem_dedupFirst _ _).mp hn, hne⟩))
    have hrem : removeStaleLoop Backend.mem postId
        (dedupFirst (names.map normalizeName))
        (getTagsByPostId postId (updatePostTags Backend.mem postId names st).2)
        (updatePostTags Backend.mem postId names st).2
        = (updatePostTags Backend.mem postId names st).2 := by
      apply removeStaleLoop_noop
      intro t ht
      have : jsToLower t.name ∈ linkedLowerList postId
          (updatePostTags Backend.mem postId names st).2 :=
        mem_linkedLowerList.mpr ⟨t, ht, rfl⟩
      have hc := (hcanon _).mp ((hlinked _).mp this)
      exact (mem_dedupFirst _ _).mpr hc.1
    calc (updatePostTags Backend.mem postId names
            (updatePostTags Backend.mem postId names st).2).2
        = removeStaleLoop Backend.mem postId
            (dedupFirst (names.map normalizeName))
            (getTagsByPostId postId (updatePostTags Backend.mem postId names st).2)
            (addNewTagsLoop Backend.mem postId
              (linkedLowerList postId (updatePostTags Backend.mem postId names st).2)
              (dedupFirst (names.map normalizeName))
              (updatePostTags Backend.mem postId names st).2) := rfl
      _ = (updatePostTags Backend.mem postId names st).2 := by rw [hadd, hrem]
  | db =>
    have hadd : addNewTagsLoop Backend.db postId
        (linkedLowerList postId (updatePostTags Backend.db postId names st).2)
        ((dedupFirst (names.map normalizeName)).filter (fun t => t != ""))
        (updatePostTags Backend.db postId names st).2
        = (updatePostTags Backend.db postId names st).2 := by
      apply addNewTagsLoop_noop
      intro n hn
      obtain ⟨hmem, hne⟩ := List.mem_filter.mp hn
      refine Or.inr ((hlinked n).mpr ((hcanon n).mpr
        ⟨(mem_dedupFirst _ _).mp hmem, by simpa using hne⟩))
    have hrem : removeStaleLoop Backend.db postId
        ((dedupFirst (names.map normalizeName)).filter (fun t => t != ""))
        (getTagsByPostId postId (updatePostTags Backend.db postId names st).2)
        (updatePostTags Backend.db postId names st).2
        = (updatePostTags Backend.db postId names st).2 := by
      apply removeStaleLoop_noop
      intro t ht
      have : jsToLower t.name ∈ linkedLowerList postId
          (updatePostTags Backend.db postId names st).2 :=
        mem_linkedLowerList.mpr ⟨t, ht, rfl⟩
      have hc := (hcanon _).mp ((hlinked _).mp this)
      exact List.mem_filter.mpr ⟨(mem_dedupFirst _ _).mpr hc.1, by simpa using hc.2⟩
    calc (updatePostTags Backend.db postId names
            (updatePostTags Backend.db postId names st).2).2
        = removeStaleLoop Backend.db postId
            ((dedupFirst (names.map normalizeName)).filter (fun t => t != ""))
            (getTagsByPostId postId (updatePostTags Backend.db postId names st).2)
            (addNewTagsLoop Backend.db postId
              (linkedLowerList postId (updatePostTags Backend.db postId names st).2)
              ((dedupFirst (names.map normalizeName)).filter (fun t => t != ""))
              (updatePostTags Backend.db postId names st).2) := rfl
      _ = (updatePostTags Backend.db postId names st).2 := by rw [hadd, hrem]

/-- Witness for C2 at a concrete input: reconciling the empty store's post 1
to `["a", "B"]` twice; the second call returns the state unchanged. -/
theorem C2_witness :
    (updatePostTags Backend.db 1 ["a", "B"]
        (updatePostTags Backend.db 1 ["a", "B"] emptyStore).2).2
      = (updatePostTags Backend.db 1 ["a", "B"] emptyStore).2 :=
  C2_updatePostTags_idempotent Backend.db 1 ["a", "B"] emptyStore
    (by unfold WF pairsOf; decide)

/-- Claim C4, counterexample: the claim says a name sequence with empty
canonical form leaves existing associations unchanged; in fact
`updatePostTags` then removes every association of the post (both
implementations).  `goStore` has post 1 linked to "go"; after the call the
link set is empty, not `["go"]`. -/
theorem C4_counterexample :
    linkedLowerList 1 goStore = ["go"] ∧
    canonicalTagSet [" "] = ∅ ∧
    linkedLowerList 1 (updatePostTags Backend.db 1 [" "] goStore).2 = [] ∧
    linkedLowerList 1 (updatePostTags Backend.mem 1 [" "] goStore).2 = [] := by
  exact ⟨by decide, by decide, by decide, by decide⟩

/-- Claim C4, amended: calling `updatePostTags` with a name sequence whose
canonical form is the empty set removes all of the post's tag
associations (clear-all), for both implementations on a well-formed store.
(The "empty input leaves tags untouched" behavior exists only at the
`createPost`/`updatePost` level, which skip the call for an absent or
empty tags array.) -/
theorem C4_updatePostTags_empty_clears (b : Backend) (postId : Nat)
    (names : List String) (st : StoreState) (hwf : WF st)
    (hempty : canonicalTagSet names = ∅) :
    linkedLowerList postId (updatePostTags b postId names st).2 = [] := by
  have h := (updatePostTags_spec b postId names st hwf).2.1
  rw [hempty] at h
  exact (List.toFinset_eq_empty_iff _).mp h

/-- Witness for the amended C4: clearing `goStore`'s post 1 with a
whitespace-only name list. -/
theorem C4_witness :
    linkedLowerList 1 (updatePostTags Backend.db 1 ["", "  "] goStore).2 = [] :=
  C4_updatePostTags_empty_clears Backend.db 1 ["", "  "] goStore
    (by unfold WF pairsOf; decide) (by decide)

/-! ## Read path, post lifecycle, scheduler and pagination -/

/-- The `PostWithDetails` record assembled by `getPost`. -/
structure PostWithDetails where
  id : Nat
  title : String
  body : String
  authorId : Nat
  createdAt : Int
  authorName : String
  tags : List String
  commentCount : Nat
  deriving Repr, DecidableEq

/-- Embedding of `getCommentsByPostId` (rows only; display order is irrelevant to the
claims).  `MemStorage` drops comments whose author row is missing; the
database left join keeps every row. -/
def getCommentsByPostId (b : Backend) (postId : Nat) (st : StoreState) :
    List Comment :=
  match b with
  | .mem => (st.comments.filter (fun c => c.postId == postId)).filter
      (fun c => st.users.any (fun u => u.id == c.authorId))
  | .db => st.comments.filter (fun c => c.postId == postId)

/-- Embedding of `getPost` — post row + author summary + tag names + comment count;
`none` when the post row or its author row is missing (the defensive
"tombstone" behavior). -/
def getPost (b : Backend) (id : Nat) (st : StoreState) : Option PostWithDetails :=
  match st.posts.find? (fun p => p.id == id) with
  | none => none
  | some post =>
    match st.users.find? (fun u => u.id == post.authorId) with
    | none => none
    | some author =>
      some { id := post.id, title := post.title, body := post.body,
             authorId := post.authorId, createdAt := post.createdAt,
             authorName := author.name,
             tags := (getTagsByPostId id st).map (fun t => t.name),
             commentCount := (getCommentsByPostId b id st).length }

/-- Embedding of `getPostsByTag(tagName)`.  `MemStorage` resolves the tag
case-insensitively through `getTagByName`; `DatabaseStorage` looks it up
with the case-sensitive SQL equality `tags.name = tagName`.  An unknown
tag yields the empty list. -/
def getPostsByTag (b : Backend) (tagName : String) (st : StoreState) :
    List PostWithDetails :=
  let tagOpt := match b with
    | .mem => getTagByName tagName st
    | .db => st.tags.find? (fun t => t.name == tagName)
  match tagOpt with
  | none => []
  | some tag =>
    (st.postTags.filter (fun pt => pt.tagId == tag.id)).filterMap
      (fun pt => getPost b pt.postId st)

/-- Embedding of `deletePost(id)`.  `MemStorage` returns `false` immediately when the
post row is absent; otherwise both implementations delete the post's
comments, its join rows and the post row, and report whether a post row
was deleted (no error in either case — the result is always a `Bool`).
`DatabaseStorage` issues the dependent deletes even when the post does not
exist. -/
def cascadeDelete (id : Nat) (st : StoreState) : StoreState :=
  { st with
    comments := st.comments.filter (fun c => !(c.postId == id)),
    postTags := st.postTags.filter (fun pt => !(pt.postId == id)),
    posts := st.posts.filter (fun p => !(p.id == id)) }

def deletePost (b : Backend) (id : Nat) (st : StoreState) : Bool × StoreState :=
  match b with
  | .mem =>
    if st.posts.any (fun p => p.id == id) then (true, cascadeDelete id st)
    else (false, st)
  | .db => (st.posts.any (fun p => p.id == id), cascadeDelete id st)

/-- Embedding of `getPostsOlderThan(hours)` — both implementations compute
`cutoff = now − hours` hours (the `Date#setHours(getHours()−hours)`
arithmetic, in milliseconds) and filter `createdAt < cutoff` strictly. -/
def getPostsOlderThan (hours : Int) (now : Int) (st : StoreState) : List Post :=
  let cutoffTime := now - hours * 3600000
  st.posts.filter (fun p => decide (p.createdAt < cutoffTime))

/-- The partial update payload `Partial<InsertPost>`; absent fields are
`none`. -/
structure PostPatch where
  title : Option String
  body : Option String
  tags : Option (List String)
  deriving Repr, DecidableEq

/-- JavaScript truthiness of an optional string field: `undefined` and
`""` are falsy. -/
def jsTruthy : Option String → Bool
  | some s => s != ""
  | none => false

/-- The update both implementations apply to the post row: a field is
overwritten only when the supplied value is truthy
(`...(postData.title ? { title: postData.title } : {})` /
`if (postData.title) updateData.title = postData.title`). -/
def applyPatch (patch : PostPatch) (post : Post) : Post :=
  { post with
    title := if jsTruthy patch.title then patch.title.getD post.title else post.title,
    body := if jsTruthy patch.body then patch.body.getD post.body else post.body }

/-- Embedding of `updatePost(id, postData)`.  `MemStorage`: look the post up (absent →
`undefined`), overwrite the truthy fields, then reconcile tags when a
non-empty tags array was supplied.  `DatabaseStorage`: if no truthy field
was supplied, just select and return the row (no tag update); otherwise
run the UPDATE (absent row → `undefined`), then reconcile tags when a
non-empty tags array was supplied. -/
def updatePost (b : Backend) (id : Nat) (patch : PostPatch) (st : StoreState) :
    Option Post × StoreState :=
  match b with
  | .mem =>
    match st.posts.find? (fun p => p.id == id) with
    | none => (none, st)
    | some post =>
      let updatedPost := applyPatch patch post
      let st1 := { st with
        posts := st.posts.map (fun p => if p.id = id then updatedPost else p) }
      let st2 :=
        match patch.tags with
        | some ts => if ts ≠ [] then (updatePostTags Backend.mem id ts st1).2 else st1
        | none => st1
      (some updatedPost, st2)
  | .db =>
    if jsTruthy patch.title || jsTruthy patch.body then
      let st1 := { st with
        posts := st.posts.map (fun p => if p.id = id then applyPatch patch p else p) }
      match st.posts.find? (fun p => p.id == id) with
      | none => (none, st1)
      | some post =>
        let st2 :=
          match patch.tags with
          | some ts => if ts ≠ [] then (updatePostTags Backend.db id ts st1).2 else st1
          | none => st1
        (some (applyPatch patch post), st2)
    else
      (st.posts.find? (fun p => p.id == id), st)

/-- One run of the scheduled deletion job (`scheduler.ts`).  `del` models
`storage.deletePost` for each id: `Except.error` models a rejected
promise.  The whole loop runs inside a single `try`/`catch`, so a
rejection ends the run (the error is logged by the `catch`).  The result
is the list of post ids passed to `deletePost`, in order, and whether the
run was aborted by the `catch`. -/
def runSweepAux (del : Nat → Except String Bool) :
    List Nat → List Nat → List Nat × Bool
  | [], attempted => (attempted, false)
  | id :: rest, attempted =>
    match del id with
    | Except.ok _ => runSweepAux del rest (attempted ++ [id])
    | Except.error _ => (attempted ++ [id], true)

/-- One sweep over the batch `oldPosts` returned by `getPostsOlderThan(24)`. -/
def runSweep (del : Nat → Except String Bool) (oldPosts : List Nat) :
    List Nat × Bool :=
  runSweepAux del oldPosts []

/-- JavaScript `parseInt(x) || d`: `none` models an absent or unparseable
parameter (`parseInt` returned `NaN`); a parsed `0` is falsy and also
falls back to the default. -/
def jsOrInt (q : Option Int) (d : Int) : Int :=
  match q with
  | none => d
  | some k => if k = 0 then d else k

/-- Model of `Math.max(parseInt(req.query.page) || 1, 1)`. -/
def pageOf (q : Option Int) : Int := max (jsOrInt q 1) 1

/-- Model of `Math.min(Math.max(parseInt(req.query.per_page) || 20, 1), 100)`. -/
def perPageOf (q : Option Int) : Int := min (max (jsOrInt q 20) 1) 100

/-- The `data` payload of `GET /api/posts`. -/
structure PageResult (α : Type) where
  posts : List α
  current_page : Int
  total_pages : Int
  total_count : Nat
  deriving Repr, DecidableEq

/-- The pagination performed by the `GET /api/posts` route:
`posts.slice(start, start + perPage)` with `start = (page − 1) · perPage`,
and the `meta` fields of the response. -/
def paginate {α : Type} (pageQ perPageQ : Option Int) (posts : List α) :
    PageResult α :=
  let page := pageOf pageQ
  let perPage := perPageOf perPageQ
  let start := (page - 1) * perPage
  { posts := (posts.drop start.toNat).take perPage.toNat,
    current_page := page,
    total_pages := (Int.ofNat posts.length + perPage - 1) / perPage,
    total_count := posts.length }

theorem createTag_frame (n : String) (st : StoreState) :
    (createTag n st).2.users = st.users ∧
    (createTag n st).2.posts = st.posts ∧
    (createTag n st).2.comments = st.comments :=
  ⟨rfl, rfl, rfl⟩

theorem addTagToPost_frame (b : Backend) (postId tagId : Nat) (st : StoreState) :
    (addTagToPost b postId tagId st).2.users = st.users ∧
    (addTagToPost b postId tagId st).2.posts = st.posts ∧
    (addTagToPost b postId tagId st).2.comments = st.comments := by
  cases b
  · exact ⟨rfl, rfl, rfl⟩
  · unfold addTagToPost
    cases st.postTags.find? (fun pt => pt.postId == postId && pt.tagId == tagId) with
    | none => exact ⟨rfl, rfl, rfl⟩
    | some pt => exact ⟨rfl, rfl, rfl⟩

theorem removeTagFromPost_frame (b : Backend) (postId tagId : Nat)
    (st : StoreState) :
    (removeTagFromPost b postId tagId st).2.users = st.users ∧
    (removeTagFromPost b postId tagId st).2.posts = st.posts ∧
    (removeTagFromPost b postId tagId st).2.comments = st.comments := by
  cases b <;> exact ⟨rfl, rfl, rfl⟩

theorem addNewTagsLoop_frame (b : Backend) (postId : Nat) (en : List String) :
    ∀ (ns : List String) (st : StoreState),
      (addNewTagsLoop b postId en ns st).users = st.users ∧
      (addNewTagsLoop b postId en ns st).posts = st.posts ∧
      (addNewTagsLoop b postId en ns st).comments = st.comments := by
  intro ns
  induction ns with
  | nil => intro st; exact ⟨rfl, rfl, rfl⟩
  | cons n rest ih =>
    intro st
    rw [addNewTagsLoop]
    by_cases h1 : b = Backend.mem ∧ n = ""
    · rw [if_pos h1]; exact ih st
    · rw [if_neg h1]
      by_cases h2 : n ∈ en
      · rw [if_pos h2]; exact ih st
      · rw [if_neg h2]
        cases hf : getTagByName n st with
        | some t =>
          exact ⟨(ih _).1.trans (addTagToPost_frame b postId t.id st).1,
            (ih _).2.1.trans (addTagToPost_frame b postId t.id st).2.1,
            (ih _).2.2.trans (addTagToPost_frame b postId t.id st).2.2⟩
        | none =>
          exact ⟨(ih _).1.trans ((addTagToPost_frame b postId
              (createTag n st).1.id (createTag n st).2).1.trans rfl),
            (ih _).2.1.trans ((addTagToPost_frame b postId
              (createTag n st).1.id (createTag n st).2).2.1.trans rfl),
            (ih _).2.2.trans ((addTagToPost_frame b postId
              (createTag n st).1.id (createTag n st).2).2.2.trans rfl)⟩

theorem removeStaleLoop_frame (b : Backend) (postId : Nat) (uniq : List String) :
    ∀ (ts : List Tag) (st : StoreState),
      (removeStaleLoop b postId uniq ts st).users = st.users ∧
      (removeStaleLoop b postId uniq ts st).posts = st.posts ∧
      (removeStaleLoop b postId uniq ts st).comments = st.comments := by
  intro ts
  induction ts with
  | nil => intro st; exact ⟨rfl, rfl, rfl⟩
  | cons t rest ih =>
    intro st
    rw [removeStaleLoop]
    by_cases h : jsToLower t.name ∈ uniq
    · rw [if_pos h]; exact ih st
    · rw [if_neg h]
      exact ⟨(ih _).1.trans (removeTagFromPost_frame b postId t.id st).1,
        (ih _).2.1.trans (removeTagFromPost_frame b postId t.id st).2.1,
        (ih _).2.2.trans (removeTagFromPost_frame b postId t.id st).2.2⟩

/-- Frame property: `updatePostTags` touches only the tag and join tables, never the
users, posts or comments tables (unconditionally). -/
theorem updatePostTags_frame (b : Backend) (postId : Nat) (names : List String)
    (st : StoreState) :
    (updatePostTags b postId names st).2.users = st.users ∧
    (updatePostTags b postId names st).2.posts = st.posts ∧
    (updatePostTags b postId names st).2.comments = st.comments := by
  cases b with
  | mem =>
    exact ⟨(removeStaleLoop_frame _ _ _ _ _).1.trans (addNewTagsLoop_frame _ _ _ _ _).1,
      (removeStaleLoop_frame _ _ _ _ _).2.1.trans (addNewTagsLoop_frame _ _ _ _ _).2.1,
      (removeStaleLoop_frame _ _ _ _ _).2.2.trans (addNewTagsLoop_frame _ _ _ _ _).2.2⟩
  | db =>
    exact ⟨(removeStaleLoop_frame _ _ _ _ _).1.trans (addNewTagsLoop_frame _ _ _ _ _).1,
      (removeStaleLoop_frame _ _ _ _ _).2.1.trans (addNewTagsLoop_frame _ _ _ _ _).2.1,
      (removeStaleLoop_frame _ _ _ _ _).2.2.trans (addNewTagsLoop_frame _ _ _ _ _).2.2⟩

/-- A deletePost stub used by the sweep theorems: rejects on post 1,
succeeds on every other id. -/
def failingDel : Nat → Except String Bool :=
  fun id => if id = 1 then Except.error "storage failure" else Except.ok true

/-- Claim C3, counterexample: with batch `[1, 2]` and the delete of post 1
failing, the run ends in the job-level catch: post 2 is never passed to
`deletePost`, contradicting the claim that the remaining posts of the
batch are still deleted. -/
theorem C3_counterexample :
    runSweep failingDel [1, 2] = ([1], true) ∧
    2 ∉ (runSweep failingDel [1, 2]).1 := by
  exact ⟨by decide, by decide⟩

/-- Claim C3, amended: the sweep's try/catch wraps the whole batch, not each
item: if every delete before `bad` succeeds and the delete of `bad`
rejects, the run passes exactly `pre ++ [bad]` to `deletePost` — the posts
after the first failure are never attempted — and the error is caught
(and logged) at run level, so the job itself survives. -/
theorem C3_sweep_aborts (del : Nat → Except String Bool) (bad : Nat) (e : String)
    (pre rest : List Nat)
    (hok : ∀ i ∈ pre, ∃ v, del i = Except.ok v)
    (hbad : del bad = Except.error e) :
    runSweep del (pre ++ bad :: rest) = (pre ++ [bad], true) := by
  have H : ∀ (pre' : List Nat), (∀ i ∈ pre', ∃ v, del i = Except.ok v) →
      ∀ acc, runSweepAux del (pre' ++ bad :: rest) acc
        = ((acc ++ pre') ++ [bad], true) := by
    intro pre'
    induction pre' with
    | nil =>
      intro _ acc
      simp only [List.nil_append]
      rw [runSweepAux, hbad]
      simp
    | cons i is ih =>
      intro hok' acc
      obtain ⟨v, hv⟩ := hok' i (List.mem_cons_self i is)
      rw [List.cons_append, runSweepAux, hv]
      rw [ih (fun j hj => hok' j (List.mem_cons_of_mem i hj)) (acc ++ [i])]
      simp
  have h := H pre hok []
  simpa [runSweep] using h

/-- Witness for the amended C3: batch `[0, 1, 2]`, post 0 deletes fine,
post 1 fails — exactly `[0, 1]` are attempted and the run aborts. -/
theorem C3_witness :
    runSweep failingDel [0, 1, 2] = ([0, 1], true) := by
  have h := C3_sweep_aborts failingDel 1 "storage failure" [0] [2]
    (by intro i hi; simp at hi; subst hi; exact ⟨true, rfl⟩) rfl
  simpa using h

/-- Claim C5, counterexample: `MemStorage.addTagToPost` inserts
unconditionally — called on `goStore`, where the (1, 1) pair already
exists, it creates a second row with the same pair, so the row set changes
and pair uniqueness is violated; `DatabaseStorage` on the same input is a
no-op. -/
theorem C5_counterexample :
    (addTagToPost Backend.mem 1 1 goStore).2.postTags
      = [⟨1, 1, 1⟩, ⟨2, 1, 1⟩] ∧
    ¬ (pairsOf (addTagToPost Backend.mem 1 1 goStore).2).Nodup ∧
    (addTagToPost Backend.db 1 1 goStore).2 = goStore := by
  exact ⟨by decide, by decide, by decide⟩

/-- Claim C5, amended: in `DatabaseStorage`, `addTagToPost` on an existing
(postId, tagId) pair leaves the store unchanged (a no-op, not an error),
and pair uniqueness is preserved; in `MemStorage` the same call inserts a
duplicate row (see the counterexample), so there the invariant only holds
because `updatePostTags` never links an already-linked tag. -/
theorem C5_addTagToPost_db_noop (postId tagId : Nat) (st : StoreState)
    (hex : (postId, tagId) ∈ pairsOf st) :
    (addTagToPost Backend.db postId tagId st).2 = st ∧
    ((pairsOf st).Nodup →
      (pairsOf (addTagToPost Backend.db postId tagId st).2).Nodup) := by
  have hsome : (st.postTags.find?
      (fun pt => pt.postId == postId && pt.tagId == tagId)).isSome := by
    obtain ⟨pt, hpt, heq⟩ := List.mem_map.mp hex
    have h1 : pt.postId = postId := congrArg Prod.fst heq
    have h2 : pt.tagId = tagId := congrArg Prod.snd heq
    exact List.find?_isSome.mpr ⟨pt, hpt, by simp [h1, h2]⟩
  obtain ⟨pt0, hpt0⟩ := Option.isSome_iff_exists.mp hsome
  have heq : (addTagToPost Backend.db postId tagId st).2 = st := by
    unfold addTagToPost
    rw [hpt0]
  exact ⟨heq, fun h => by rw [heq]; exact h⟩

/-- Witness for the amended C5 on the concrete `goStore`. -/
theorem C5_witness :
    (1, 1) ∈ pairsOf goStore ∧
    (addTagToPost Backend.db 1 1 goStore).2 = goStore :=
  ⟨by decide, (C5_addTagToPost_db_noop 1 1 goStore (by decide)).1⟩

/-- Claim C7: `deletePost(id)` returns `true` exactly when a post with that
id exists; when it does, every comment row and every postTag row with that
postId is removed along with the post row (and nothing else); when it does
not, `MemStorage` returns `false` leaving the store untouched (and
`DatabaseStorage` returns `false` as well — the result is a `Bool` in
every case, never an error). -/
theorem C7_deletePost_cascade (b : Backend) (id : Nat) (st : StoreState) :
    ((deletePost b id st).1 = true ↔ ∃ p ∈ st.posts, p.id = id) ∧
    ((deletePost b id st).1 = true →
      (∀ c ∈ (deletePost b id st).2.comments, c.postId ≠ id) ∧
      (∀ pt ∈ (deletePost b id st).2.postTags, pt.postId ≠ id) ∧
      (∀ p ∈ (deletePost b id st).2.posts, p.id ≠ id) ∧
      (deletePost b id st).2.comments
        = st.comments.filter (fun c => !(c.postId == id)) ∧
      (deletePost b id st).2.postTags
        = st.postTags.filter (fun pt => !(pt.postId == id)) ∧
      (deletePost b id st).2.posts
        = st.posts.filter (fun p => !(p.id == id))) ∧
    ((deletePost b id st).1 = false → b = Backend.mem →
      (deletePost b id st).2 = st) := by
  have hany : (st.posts.any (fun p => p.id == id) = true) ↔ ∃ p ∈ st.posts, p.id = id := by
    rw [List.any_eq_true]
    simp
  have hcfilter : ∀ c ∈ st.comments.filter (fun c => !(c.postId == id)), c.postId ≠ id := by
    intro c hc
    have := (List.mem_filter.mp hc).2
    simpa using this
  have hptfilter : ∀ pt ∈ st.postTags.filter (fun pt => !(pt.postId == id)),
      pt.postId ≠ id := by
    intro pt hpt
    have := (List.mem_filter.mp hpt).2
    simpa using this
  have hpfilter : ∀ p ∈ st.posts.filter (fun p => !(p.id == id)), p.id ≠ id := by
    intro p hp
    have := (List.mem_filter.mp hp).2
    simpa using this
  cases b with
  | mem =>
    simp only [deletePost]
    by_cases h : st.posts.any (fun p => p.id == id) = true
    · rw [if_pos h]
      refine ⟨⟨fun _ => hany.mp h, fun _ => rfl⟩, ?_, ?_⟩
      · intro _
        exact ⟨hcfilter, hptfilter, hpfilter, rfl, rfl, rfl⟩
      · intro hfalse
        simp at hfalse
    · rw [if_neg h]
      refine ⟨by simp only [hany] at h; simpa using h, ?_, ?_⟩
      · intro htrue
        simp at htrue
      · intro _ _
        rfl
  | db =>
    simp only [deletePost]
    refine ⟨by simpa using hany, ?_, ?_⟩
    · intro _
      exact ⟨hcfilter, hptfilter, hpfilter, rfl, rfl, rfl⟩
    · intro _ hmem
      exact Backend.noConfusion hmem

/-- A store with one post, its author, one comment and one tag link. -/
def postStore : StoreState :=
  ⟨[⟨1, "alice", "alice@example.com"⟩], [⟨1, "t", "b", 1, 0⟩], [⟨1, "go"⟩],
   [⟨1, 1, 1⟩], [⟨1, "hi", 1, 1, 0⟩], 2, 2⟩

/-- Witness for C7: deleting post 1 of `postStore` returns true and leaves
no comment, join row or post row with postId 1. -/
theorem C7_witness :
    (deletePost Backend.db 1 postStore).1 = true ∧
    (∀ c ∈ (deletePost Backend.db 1 postStore).2.comments, c.postId ≠ 1) ∧
    (∀ pt ∈ (deletePost Backend.db 1 postStore).2.postTags, pt.postId ≠ 1) ∧
    (∀ p ∈ (deletePost Backend.db 1 postStore).2.posts, p.id ≠ 1) := by
  have h := C7_deletePost_cascade Backend.db 1 postStore
  have h1 : (deletePost Backend.db 1 postStore).1 = true :=
    h.1.mpr ⟨⟨1, "t", "b", 1, 0⟩, by decide, rfl⟩
  obtain ⟨hc, hpt, hp, _⟩ := h.2.1 h1
  exact ⟨h1, hc, hpt, hp⟩

/-- Claim C8: `getPostsOlderThan(h)` at clock instant `now` returns exactly
the posts with `createdAt < now − h` hours, and a post sitting exactly on
the boundary instant is excluded (strict less-than). -/
theorem C8_getPostsOlderThan_strict (hours now : Int) (st : StoreState) :
    (∀ p, p ∈ getPostsOlderThan hours now st
      ↔ (p ∈ st.posts ∧ p.createdAt < now - hours * 3600000)) ∧
    (∀ p ∈ st.posts, p.createdAt = now - hours * 3600000 →
      p ∉ getPostsOlderThan hours now st) := by
  have hiff : ∀ p, p ∈ getPostsOlderThan hours now st
      ↔ (p ∈ st.posts ∧ p.createdAt < now - hours * 3600000) := by
    intro p
    unfold getPostsOlderThan
    rw [List.mem_filter]
    simp
  refine ⟨hiff, ?_⟩
  intro p _ heq hmem
  have := ((hiff p).mp hmem).2
  omega

/-- A store with one post created exactly at the expiry boundary. -/
def boundaryStore : StoreState := ⟨[], [⟨1, "t", "b", 1, 0⟩], [], [], [], 1, 1⟩

/-- Witness for C8: with the clock at 24h, the post created at instant 0 —
exactly 24 hours old — is not selected. -/
theorem C8_witness :
    (⟨1, "t", "b", 1, 0⟩ : Post) ∉ getPostsOlderThan 24 (24 * 3600000) boundaryStore :=
  (C8_getPostsOlderThan_strict 24 (24 * 3600000) boundaryStore).2
    ⟨1, "t", "b", 1, 0⟩ (by decide) (by decide)

theorem getPost_id (b : Backend) (pid : Nat) (st : StoreState)
    (hp : ∃ p ∈ st.posts, p.id = pid)
    (hauthor : ∀ p ∈ st.posts, ∃ u ∈ st.users, u.id = p.authorId) :
    ∃ d, getPost b pid st = some d ∧ d.id = pid := by
  obtain ⟨p, hpmem, hpid⟩ := hp
  have hfs : (st.posts.find? (fun q => q.id == pid)).isSome :=
    List.find?_isSome.mpr ⟨p, hpmem, by simp [hpid]⟩
  obtain ⟨p', hp'⟩ := Option.isSome_iff_exists.mp hfs
  have hp'id : p'.id = pid := by
    have := List.find?_some hp'
    simpa using this
  obtain ⟨u, humem, huid⟩ := hauthor p' (List.mem_of_find?_eq_some hp')
  have hus : (st.users.find? (fun v => v.id == p'.authorId)).isSome :=
    List.find?_isSome.mpr ⟨u, humem, by simp [huid]⟩
  obtain ⟨u', hu'⟩ := Option.isSome_iff_exists.mp hus
  refine ⟨⟨p'.id, p'.title, p'.body, p'.authorId, p'.createdAt, u'.name,
      (getTagsByPostId pid st).map (fun t => t.name),
      (getCommentsByPostId b pid st).length⟩, ?_, hp'id⟩
  simp only [getPost, hp', hu']

theorem filterMap_getPost_map_id (b : Backend) (st : StoreState)
    (hauthor : ∀ p ∈ st.posts, ∃ u ∈ st.users, u.id = p.authorId) :
    ∀ (l : List PostTag), (∀ pt ∈ l, ∃ p ∈ st.posts, p.id = pt.postId) →
      (l.filterMap (fun pt => getPost b pt.postId st)).map (fun d => d.id)
        = l.map (fun pt => pt.postId) := by
  intro l
  induction l with
  | nil => intro _; rfl
  | cons pt rest ih =>
    intro h
    obtain ⟨d, hd, hdid⟩ :=
      getPost_id b pt.postId st (h pt (List.mem_cons_self pt rest)) hauthor
    simp only [List.filterMap_cons, hd, List.map_cons]
    rw [ih (fun q hq => h q (List.mem_cons_of_mem pt hq)), hdid]

/-- Claim C6, amended: `MemStorage.getPostsByTag` resolves the query
case-insensitively — the result is invariant under re-casing of the query,
an unknown name yields `[]`, and a resolved tag yields exactly the posts
linked to it — while `DatabaseStorage.getPostsByTag` looks the tag up by
exact (case-sensitive) name equality, so an unknown exact name yields `[]`
there, and a query differing from the stored name only in case returns
`[]` (see the counterexample). -/
theorem C6_getPostsByTag_resolution (st : StoreState) (q : String)
    (hpost : ∀ pt ∈ st.postTags, ∃ p ∈ st.posts, p.id = pt.postId)
    (hauthor : ∀ p ∈ st.posts, ∃ u ∈ st.users, u.id = p.authorId) :
    (getPostsByTag Backend.mem q st
      = getPostsByTag Backend.mem (jsToLower q) st) ∧
    (getTagByName q st = none → getPostsByTag Backend.mem q st = []) ∧
    (st.tags.find? (fun t => t.name == q) = none →
      getPostsByTag Backend.db q st = []) ∧
    (∀ tg, getTagByName q st = some tg →
      (getPostsByTag Backend.mem q st).map (fun d => d.id)
        = (st.postTags.filter (fun pt => pt.tagId == tg.id)).map
            (fun pt => pt.postId)) := by
  refine ⟨?_, ?_, ?_, ?_⟩
  · have hpred : getTagByName q st = getTagByName (jsToLower q) st := by
      unfold getTagByName
      have : (fun t : Tag => jsToLower t.name == jsToLower q)
          = (fun t : Tag => jsToLower t.name == jsToLower (jsToLower q)) := by
        funext t
        rw [jsToLower_idem]
      rw [this]
    simp only [getPostsByTag, hpred]
  · intro h
    simp only [getPostsByTag, h]
  · intro h
    simp only [getPostsByTag, h]
  · intro tg htg
    simp only [getPostsByTag, htg]
    exact filterMap_getPost_map_id Backend.mem st hauthor _
      (fun pt hpt => hpost pt (List.mem_of_mem_filter hpt))

/-- Store for the tag-query claims: author 1, post 1, tag "go" linked. -/
def tagQueryStore : StoreState :=
  ⟨[⟨1, "alice", "alice@example.com"⟩], [⟨1, "t", "b", 1, 0⟩], [⟨1, "go"⟩],
   [⟨1, 1, 1⟩], [], 2, 2⟩

/-- Claim C6, counterexample: with tag "go" stored and post 1 linked to it,
`DatabaseStorage.getPostsByTag("Go")` returns `[]` — the lookup
`eq(tags.name, tagName)` is case-sensitive — although `"go"` returns the
post, and `MemStorage` resolves `"Go"` case-insensitively. -/
theorem C6_counterexample :
    getPostsByTag Backend.db "Go" tagQueryStore = [] ∧
    (getPostsByTag Backend.db "go" tagQueryStore).map (fun d => d.id) = [1] ∧
    (getPostsByTag Backend.mem "Go" tagQueryStore).map (fun d => d.id) = [1] := by
  exact ⟨by decide, by decide, by decide⟩

/-- Witness for the amended C6 at the concrete store and query "Go". -/
theorem C6_witness :
    (getPostsByTag Backend.mem "Go" tagQueryStore
      = getPostsByTag Backend.mem (jsToLower "Go") tagQueryStore) ∧
    (∀ tg, getTagByName "Go" tagQueryStore = some tg →
      (getPostsByTag Backend.mem "Go" tagQueryStore).map (fun d => d.id)
        = (tagQueryStore.postTags.filter (fun pt => pt.tagId == tg.id)).map
            (fun pt => pt.postId)) := by
  have h := C6_getPostsByTag_resolution tagQueryStore "Go" (by decide) (by decide)
  exact ⟨h.1, h.2.2.2⟩

theorem applyPatch_fields (patch : PostPatch) (p : Post) :
    (applyPatch patch p).id = p.id ∧
    (applyPatch patch p).authorId = p.authorId ∧
    (applyPatch patch p).createdAt = p.createdAt ∧
    (applyPatch patch p).title = (match patch.title with
      | some t => if t = "" then p.title else t
      | none => p.title) ∧
    (applyPatch patch p).body = (match patch.body with
      | some t => if t = "" then p.body else t
      | none => p.body) := by
  refine ⟨rfl, rfl, rfl, ?_, ?_⟩
  · cases h : patch.title with
    | none => simp [applyPatch, jsTruthy, h]
    | some t =>
      by_cases ht : t = "" <;> simp [applyPatch, jsTruthy, h, ht]
  · cases h : patch.body with
    | none => simp [applyPatch, jsTruthy, h]
    | some t =>
      by_cases ht : t = "" <;> simp [applyPatch, jsTruthy, h, ht]

/-- Claim C9: for an existing post, `updatePost` overwrites only the
supplied non-empty fields — an absent or empty-string title/body leaves
the stored value — never changes the post's id, authorId or createdAt,
and leaves every other post untouched (both implementations). -/
theorem C9_updatePost_partial (b : Backend) (id : Nat) (patch : PostPatch)
    (st : StoreState) (p : Post) (hnd : (st.posts.map Post.id).Nodup)
    (hp : p ∈ st.posts) (hpid : p.id = id) :
    ∃ p', (updatePost b id patch st).1 = some p' ∧
      p' ∈ (updatePost b id patch st).2.posts ∧
      p'.id = p.id ∧ p'.authorId = p.authorId ∧ p'.createdAt = p.createdAt ∧
      p'.title = (match patch.title with
        | some t => if t = "" then p.title else t
        | none => p.title) ∧
      p'.body = (match patch.body with
        | some t => if t = "" then p.body else t
        | none => p.body) ∧
      (∀ q ∈ st.posts, q.id ≠ id → q ∈ (updatePost b id patch st).2.posts) := by
  subst hpid
  have hfind : st.posts.find? (fun q => q.id == p.id) = some p :=
    find?_key_self Post.id st.posts hnd hp
  obtain ⟨f1, f2, f3, f4, f5⟩ := applyPatch_fields patch p
  cases b with
  | mem =>
    have hfst : (updatePost Backend.mem p.id patch st).1
        = some (applyPatch patch p) := by
      simp only [updatePost, hfind]
    have hposts : (updatePost Backend.mem p.id patch st).2.posts
        = st.posts.map (fun q => if q.id = p.id then applyPatch patch p else q) := by
      simp only [updatePost, hfind]
      split
      · split
        · exact (updatePostTags_frame Backend.mem p.id _ _).2.1
        · rfl
      · rfl
    refine ⟨applyPatch patch p, hfst, ?_, f1, f2, f3, f4, f5, ?_⟩
    · rw [hposts]
      exact List.mem_map.mpr ⟨p, hp, by simp⟩
    · intro q hq hqid
      rw [hposts]
      exact List.mem_map.mpr ⟨q, hq, by simp [hqid]⟩
  | db =>
    by_cases hcond : (jsTruthy patch.title || jsTruthy patch.body) = true
    · have hfst : (updatePost Backend.db p.id patch st).1
          = some (applyPatch patch p) := by
        simp only [updatePost, hfind, if_pos hcond]
      have hposts : (updatePost Backend.db p.id patch st).2.posts
          = st.posts.map (fun q => if q.id = p.id then applyPatch patch q else q) := by
        simp only [updatePost, hfind, if_pos hcond]
        split
        · split
          · exact (updatePostTags_frame Backend.db p.id _ _).2.1
          · rfl
        · rfl
      refine ⟨applyPatch patch p, hfst, ?_, f1, f2, f3, f4, f5, ?_⟩
      · rw [hposts]
        exact List.mem_map.mpr ⟨p, hp, by simp⟩
      · intro q hq hqid
        rw [hposts]
        exact List.mem_map.mpr ⟨q, hq, by simp [hqid]⟩
    · have htf : jsTruthy patch.title = false ∧ jsTruthy patch.body = false := by
        constructor <;> [skip; skip] <;>
          · revert hcond
            cases jsTruthy patch.title <;> cases jsTruthy patch.body <;> simp
      have hres : updatePost Backend.db p.id patch st
          = (st.posts.find? (fun q => q.id == p.id), st) := by
        simp only [updatePost, hcond]
        rfl
      have htitle : p.title = (match patch.title with
          | some t => if t = "" then p.title else t
          | none => p.title) := by
        cases h : patch.title with
        | none => rfl
        | some t =>
          have : t = "" := by
            have := htf.1
            rw [h] at this
            simpa [jsTruthy] using this
          show p.title = if t = "" then p.title else t
          rw [if_pos this]
      have hbody : p.body = (match patch.body with
          | some t => if t = "" then p.body else t
          | none => p.body) := by
        cases h : patch.body with
        | none => rfl
        | some t =>
          have : t = "" := by
            have := htf.2
            rw [h] at this
            simpa [jsTruthy] using this
          show p.body = if t = "" then p.body else t
          rw [if_pos this]
      refine ⟨p, ?_, ?_, rfl, rfl, rfl, htitle, hbody, ?_⟩
      · rw [hres]
        exact hfind
      · rw [hres]
        exact hp
      · intro q hq _
        rw [hres]
        exact hq

/-- A second concrete store used by the updatePost witness. -/
def editStore : StoreState :=
  ⟨[⟨1, "alice", "alice@example.com"⟩], [⟨7, "Old title", "Old body", 1, 5⟩],
   [], [], [], 1, 1⟩

/-- Witness for C9: patching post 7 of `editStore` with a new title and an
empty body keeps the body, authorId and createdAt, and changes the title. -/
theorem C9_witness :
    ∃ p', (updatePost Backend.db 7 ⟨some "New", some "", none⟩ editStore).1 = some p' ∧
      p' ∈ (updatePost Backend.db 7 ⟨some "New", some "", none⟩ editStore).2.posts ∧
      p'.id = 7 ∧ p'.authorId = 1 ∧ p'.createdAt = 5 ∧
      p'.title = "New" ∧ p'.body = "Old body" := by
  obtain ⟨p', h1, h2, h3, h4, h5, h6, h7, _⟩ :=
    C9_updatePost_partial Backend.db 7 ⟨some "New", some "", none⟩ editStore
      ⟨7, "Old title", "Old body", 1, 5⟩ (by decide) (by decide) (by decide)
  exact ⟨p', h1, h2, h3, h4, h5, by simpa using h6, by simpa using h7⟩

/-- Claim C10, counterexample: `per_page=0` parses to 0, which is falsy in
`parseInt(req.query.per_page) || 20`, so the route uses the default 20 —
not the 1 that clamping 0 into [1, 100] (as the claim states) would give:
20 of 25 posts are returned. -/
theorem C10_counterexample :
    perPageOf (some 0) = 20 ∧
    min (max (0 : Int) 1) 100 = 1 ∧
    (paginate none (some 0) (List.range 25)).posts.length = 20 := by
  exact ⟨by decide, by decide, by decide⟩

/-- Claim C10, amended: page is clamped below to 1 (with default 1 when
absent, unparseable or zero); per_page is clamped into [1, 100] when it
parses to a non-zero value and falls back to the default 20 when absent,
unparseable, **or parsed as 0**; the response carries the contiguous slice
starting at (page − 1)·per_page with at most per_page elements, and
total_count is the full list's length. -/
theorem C10_paginate_spec (pageQ perPageQ : Option Int) (posts : List Nat) :
    1 ≤ pageOf pageQ ∧
    1 ≤ perPageOf perPageQ ∧ perPageOf perPageQ ≤ 100 ∧
    (pageQ = none ∨ pageQ = some 0 → pageOf pageQ = 1) ∧
    (∀ k, pageQ = some k → k ≠ 0 → pageOf pageQ = max k 1) ∧
    (perPageQ = none ∨ perPageQ = some 0 → perPageOf perPageQ = 20) ∧
    (∀ k, perPageQ = some k → k ≠ 0 → perPageOf perPageQ = min (max k 1) 100) ∧
    (paginate pageQ perPageQ posts).posts
      = (posts.drop ((pageOf pageQ - 1) * perPageOf perPageQ).toNat).take
          (perPageOf perPageQ).toNat ∧
    (paginate pageQ perPageQ posts).posts.length ≤ (perPageOf perPageQ).toNat ∧
    (paginate pageQ perPageQ posts).total_count = posts.length ∧
    (paginate pageQ perPageQ posts).current_page = pageOf pageQ := by
  refine ⟨le_max_right _ _,
    le_min (le_max_right _ _) (by norm_num), min_le_right _ _,
    ?_, ?_, ?_, ?_, rfl, ?_, rfl, rfl⟩
  · rintro (rfl | rfl) <;> rfl
  · intro k hk hk0
    subst hk
    show (if k = 0 then 1 else k) ⊔ 1 = k ⊔ 1
    rw [if_neg hk0]
  · rintro (rfl | rfl) <;> rfl
  · intro k hk hk0
    subst hk
    show ((if k = 0 then 20 else k) ⊔ 1) ⊓ 100 = (k ⊔ 1) ⊓ 100
    rw [if_neg hk0]
  · exact List.length_take_le _ _

/-- Witness for the amended C10: page 2 of 25 posts at 10 per page is the
slice [10, 20). -/
theorem C10_witness :
    (paginate (some 2) (some 10) (List.range 25)).posts
      = ((List.range 25).drop ((pageOf (some 2) - 1) * perPageOf (some 10)).toNat).take
          (perPageOf (some 10)).toNat :=
  (C10_paginate_spec (some 2) (some 10) (List.range 25)).2.2.2.2.2.2.2.1

end WebOps
